import Mathlib

/-!
Verification of the pulse-propagation network simulator of
`src/day20/src/main.rs` (and its twin `src/day20b/src/main.rs`, whose
transition, initialisation and parsing logic is identical).

The Rust code is shallowly embedded: `HashMap`/`BTreeMap` values become
association lists with replace-or-append insertion (mirroring `insert` /
`entry(..).and_modify`), the `VecDeque` pulse queue becomes a `List` with
pop-front / push-back, and the unbounded `while let` loops become
fuel-indexed recursions returning `Option` (`none` = fuel exhausted, which
never happens at the concrete inputs used below).
-/

set_option maxRecDepth 10000

namespace Day20

abbrev Name := String

/-- The `Pulse` enum of day20: `High`, `Low`, and the `NotSeen` marker used
to prime flip-flop and broadcast input maps. -/
inductive Pulse where
  | High
  | Low
  | NotSeen
  deriving DecidableEq, Repr

abbrev Inputs := List (Name × Pulse)

/-- The `Module` enum of day20: each variant carries its `inputs` map,
its `outputs` list, and (for flip-flops) the `on` flag. -/
inductive Module where
  | FlipFlop (isOn : Bool) (inputs : Inputs) (outputs : List Name)
  | Conjunction (inputs : Inputs) (outputs : List Name)
  | Broadcast (inputs : Inputs) (outputs : List Name)
  deriving DecidableEq, Repr

abbrev ModuleMap := List (Name × Module)

/-- A queued pulse: `(source, level, destination)`, as in the Rust
`VecDeque<(String, Pulse, String)>`. -/
abbrev PulseT := Name × Pulse × Name

/-- Map lookup on an association list (the keyed read of `HashMap`/`BTreeMap`). -/
def lookupA {α : Type} : List (Name × α) → Name → Option α
  | [], _ => none
  | (k, v) :: rest, n => if k = n then some v else lookupA rest n

/-- Map insertion on an association list: replace the value at an existing
key in place, else append (the keyed write of `HashMap::insert` /
`entry(..).and_modify`). -/
def insertA {α : Type} : List (Name × α) → Name → α → List (Name × α)
  | [], n, v => [(n, v)]
  | (k, w) :: rest, n, v =>
      if k = n then (n, v) :: rest else (k, w) :: insertA rest n v

/-- `get_outputs` from day20. -/
def get_outputs : Module → List Name
  | .FlipFlop _ _ outputs => outputs
  | .Conjunction _ outputs => outputs
  | .Broadcast _ outputs => outputs

/-- The conjunction `all_same` fold from `push_button`:
`inputs.values().fold(inputs.values().next(), |acc, this| ...)` — keeps the
accumulator only while it equals the current value. -/
def allSame (vals : List Pulse) : Option Pulse :=
  vals.foldl (fun acc this => if acc = some this then acc else none) vals.head?

/-- The pulse a conjunction emits after updating its memory: `Low` when the
`all_same` fold returns `Some(High)`, otherwise `High` (day20 lines 259-262). -/
def conjOut (vals : List Pulse) : Pulse :=
  match allSame vals with
  | some .High => .Low
  | _ => .High

/-- The body of the `and_modify` closure in `push_button`: one module
receives `(source, pulse)` addressed to `destination`; returns the updated
module and the pulses pushed onto the back of the queue. -/
def moduleTransition (source : Name) (pulse : Pulse) (destination : Name) :
    Module → Module × List PulseT
  | .Broadcast inputs outputs =>
      (.Broadcast (insertA inputs source pulse) outputs,
       outputs.map fun o => (destination, pulse, o))
  | .FlipFlop isOn inputs outputs =>
      if pulse = .Low then
        let on2 := !isOn
        let next := if on2 then Pulse.High else Pulse.Low
        (.FlipFlop on2 (insertA inputs source pulse) outputs,
         outputs.map fun o => (destination, next, o))
      else
        (.FlipFlop isOn (insertA inputs source pulse) outputs, [])
  | .Conjunction inputs outputs =>
      let inputs2 := insertA inputs source pulse
      (.Conjunction inputs2 outputs,
       outputs.map fun o => (destination, conjOut (inputs2.map Prod.snd), o))

/-- One dequeued pulse hitting the state: the `contains_key` check plus the
`entry(..).and_modify` of `push_button`.  An undefined destination (a sink)
leaves the state unchanged and emits nothing. -/
def deliverPulse (st : ModuleMap) (p : PulseT) : ModuleMap × List PulseT :=
  match lookupA st p.2.2 with
  | none => (st, [])
  | some m =>
      ((insertA st p.2.2 (moduleTransition p.1 p.2.1 p.2.2 m).1),
       (moduleTransition p.1 p.2.1 p.2.2 m).2)

/-- The `while let Some(..) = pulse_queue.pop_front()` loop of `push_button`,
fuelled.  Counts Low/High deliveries, folds the observation function over
`(pulse, destination)` exactly as the Rust call
`observation_function(observation_value, &pulse, &destination)`, then runs
the transition and appends emissions at the back of the queue. -/
def pushButtonLoop {T : Type} (f : T → Pulse → Name → T) :
    Nat → ModuleMap → List PulseT → Nat → Nat → T →
    Option (ModuleMap × Nat × Nat × T)
  | 0, st, [], low, high, t => some (st, low, high, t)
  | 0, _, _ :: _, _, _, _ => none
  | _ + 1, st, [], low, high, t => some (st, low, high, t)
  | fuel + 1, st, p :: rest, low, high, t =>
      let low2 := match p.2.1 with | .Low => low + 1 | _ => low
      let high2 := match p.2.1 with | .High => high + 1 | _ => high
      let t2 := f t p.2.1 p.2.2
      pushButtonLoop f fuel (deliverPulse st p).1 (rest ++ (deliverPulse st p).2)
        low2 high2 t2

/-- `push_button` from day20: seed the queue with `(button, Low, broadcaster)`
and drain it, returning the final state, the Low and High counts and the
final observation value. -/
def push_button {T : Type} (fuel : Nat) (st : ModuleMap) (initial_value : T)
    (f : T → Pulse → Name → T) : Option (ModuleMap × Nat × Nat × T) :=
  pushButtonLoop f fuel st [("button", Pulse.Low, "broadcaster")] 0 0 initial_value

/-- The sequence of dequeued pulses of the `push_button` loop, in processing
order (same recursion as `pushButtonLoop`, recording each popped triple). -/
def runTrace : Nat → ModuleMap → List PulseT → List PulseT
  | 0, _, _ => []
  | _ + 1, _, [] => []
  | fuel + 1, st, p :: rest =>
      p :: runTrace fuel (deliverPulse st p).1 (rest ++ (deliverPulse st p).2)

/-- The sequence of observer invocations of the `push_button` loop: at each
dequeue the Rust code calls `observation_function(acc, &pulse, &destination)`,
so each invocation carries exactly the pair `(pulse, destination)`. -/
def obsTrace : Nat → ModuleMap → List PulseT → List (Pulse × Name)
  | 0, _, _ => []
  | _ + 1, _, [] => []
  | fuel + 1, st, p :: rest =>
      (p.2.1, p.2.2) ::
        obsTrace fuel (deliverPulse st p).1 (rest ++ (deliverPulse st p).2)

/-- The `source_destinations` list of `finalise_state`: every edge
`(module name, output)` in map order. -/
def sourceDestinations (st : ModuleMap) : List (Name × Name) :=
  st.flatMap fun nm => (get_outputs nm.2).map fun o => (nm.1, o)

/-- One step of the priming loop of `finalise_state`: flip-flop and
broadcast inputs get `NotSeen`, conjunction inputs get `Low`; an undefined
destination is skipped. -/
def primeConnection (st : ModuleMap) (sd : Name × Name) : ModuleMap :=
  match lookupA st sd.2 with
  | some (.FlipFlop isOn inputs outputs) =>
      insertA st sd.2 (.FlipFlop isOn (insertA inputs sd.1 .NotSeen) outputs)
  | some (.Broadcast inputs outputs) =>
      insertA st sd.2 (.Broadcast (insertA inputs sd.1 .NotSeen) outputs)
  | some (.Conjunction inputs outputs) =>
      insertA st sd.2 (.Conjunction (insertA inputs sd.1 .Low) outputs)
  | none => st

/-- The graph transformation performed by `finalise_state`. -/
def finaliseGraph (st : ModuleMap) : ModuleMap :=
  (sourceDestinations st).foldl primeConnection st

/-- `finalise_state` from day20: prime every connection and return `Ok` —
there is no error path. -/
def finalise_state (istate : String × ModuleMap) :
    Except String (String × ModuleMap) :=
  .ok (istate.1, finaliseGraph istate.2)

/-- The delimiter set of day20 (`DELIMITERS`). -/
def DELIMITERS : List Char := [' ', '-', '>', ',']

/-- `read_word` from the `processor` crate, on the remaining character list:
skip leading delimiters, accumulate until the next delimiter or the end,
return the word with the delimiter that ended it (if any) and the
remaining characters. -/
def readWordGo (consumed : List Char) :
    List Char → Option (String × Option Char) × List Char
  | [] =>
      (if consumed.isEmpty then none else some (String.mk consumed, none), [])
  | c :: rest =>
      if c ∈ DELIMITERS then
        if consumed.isEmpty then readWordGo [] rest
        else (some (String.mk consumed, some c), rest)
      else readWordGo (consumed ++ [c]) rest

/-- The `while let Some((output_name, _)) = read_word(..)` loop of
`parse_line`, fuelled by the length of the remaining input (each successful
`read_word` consumes at least one character, so this fuel always suffices). -/
def readWordsGo : Nat → List Char → List String
  | 0, _ => []
  | fuel + 1, l =>
      match readWordGo [] l with
      | (some (w, _), rest) => w :: readWordsGo fuel rest
      | (none, _) => []

/-- All remaining words of a line. -/
def readWords (l : List Char) : List String :=
  readWordsGo l.length l

/-- Classification of the first word of a line in `parse_line`: the
`match module_type_and_name.substring(0, 1)` block, producing the module
name and a module with empty inputs, or the corresponding error. -/
def parseModuleDef (module_type_and_name : String) (outputs : List Name) :
    Except String (Name × Module) :=
  let possible_name := String.mk (module_type_and_name.data.drop 1)
  match module_type_and_name.data.take 1 with
  | ['b'] =>
      if module_type_and_name = "broadcaster" then
        .ok ("broadcaster", .Broadcast [] outputs)
      else
        .error ("Unexpected module name following b: " ++ module_type_and_name)
  | ['%'] => .ok (possible_name, .FlipFlop false [] outputs)
  | ['&'] => .ok (possible_name, .Conjunction [] outputs)
  | _ => .error ("indecipherable module type/name: " ++ module_type_and_name)

/-- `parse_line` from day20: read the first word; a wordless line leaves the
state unchanged; otherwise read the outputs, classify the module and insert
it under its name (replacing any previous module of that name). -/
def parse_line (istate : String × ModuleMap) (line : String) :
    Except String (String × ModuleMap) :=
  match readWordGo [] line.data with
  | (none, _) => .ok istate
  | (some (module_type_and_name, _), rest) =>
      (parseModuleDef module_type_and_name (readWords rest)).map
        fun nm => (istate.1, insertA istate.2 nm.1 nm.2)

/-- The `try_fold` over input lines performed by `processor::process`. -/
def parseLines (istate : String × ModuleMap) :
    List String → Except String (String × ModuleMap)
  | [] => .ok istate
  | l :: rest =>
      match parse_line istate l with
      | .ok istate2 => parseLines istate2 rest
      | .error e => .error e

/-- `NUM_ITERATIONS` from day20. -/
def NUM_ITERATIONS : Nat := 1000

/-- The `(0..NUM_ITERATIONS).for_each` loop of `perform_processing_1`:
press the button `n` times, accumulating the Low and High counts (day20
passes the trivial observer `|acc, _, _| acc` with initial value `0`). -/
def pressTimes (fuel : Nat) : Nat → ModuleMap → Nat → Nat →
    Option (ModuleMap × Nat × Nat)
  | 0, st, low, high => some (st, low, high)
  | n + 1, st, low, high =>
      match push_button fuel st (0 : Nat) (fun acc _ _ => acc) with
      | some (st2, num_low, num_high, _) =>
          pressTimes fuel n st2 (low + num_low) (high + num_high)
      | none => none

/-- `perform_processing_1` from day20: 1000 presses, then the product of the
accumulated Low and High counts. -/
def perform_processing_1 (fuel : Nat) (st : ModuleMap) : Option Nat :=
  (pressTimes fuel NUM_ITERATIONS st 0 0).map fun r => r.2.1 * r.2.2

/-- The four module names hard-coded in `perform_processing_2`
(`matches!(destination.as_str(), "mp" | "qt" | "qb" | "ng")`). -/
def watchNames : List Name := ["mp", "qt", "qb", "ng"]

/-- The observation closure of `perform_processing_2`: record the current
press number the first time one of the four watched names receives a Low. -/
def pp2Observe (acc : Nat × List (Name × Nat)) (pulse : Pulse)
    (destination : Name) : Nat × List (Name × Nat) :=
  if pulse = Pulse.Low ∧ destination ∈ watchNames ∧
      (lookupA acc.2 destination).isNone then
    (acc.1, insertA acc.2 destination acc.1)
  else acc

/-- The press loop of `perform_processing_2`, fuelled: press, thread the
recorded numbers through, stop once at least four names are recorded. -/
def pp2Loop (fuel : Nat) : Nat → ModuleMap → Nat → List (Name × Nat) →
    Option (List (Name × Nat))
  | 0, _, _, _ => none
  | outer + 1, st, num_presses, interesting_nums =>
      let num := num_presses + 1
      match push_button fuel st (num, interesting_nums) pp2Observe with
      | none => none
      | some (st2, _, _, acc) =>
          if 4 ≤ acc.2.length then some acc.2
          else pp2Loop fuel outer st2 num acc.2

/-- `perform_processing_2` from day20: run the press loop, then look up the
four hard-coded names (the Rust `unwrap`s) and combine them with `lcm`. -/
def perform_processing_2 (outerFuel fuel : Nat) (st : ModuleMap) :
    Option Nat :=
  (pp2Loop fuel outerFuel st 0 []).bind fun nums =>
    match lookupA nums "mp", lookupA nums "qt",
        lookupA nums "qb", lookupA nums "ng" with
    | some mp, some qt, some qb, some ng =>
        some (Nat.lcm (Nat.lcm (Nat.lcm mp qt) qb) ng)
    | _, _, _, _ => none

/-- Boolean success test for `Except` results. -/
def exceptOk {ε α : Type} : Except ε α → Bool
  | .ok _ => true
  | .error _ => false

/-- The five-line reference circuit of the spec (spec §6 / Scenario 1). -/
def scenario1Lines : List String :=
  ["broadcaster -> a, b, c", "%a -> b", "%b -> c", "%c -> inv", "&inv -> a"]

/-- The module graph parsed from the reference circuit. -/
def scenario1Graph : ModuleMap :=
  match parseLines ("a", []) scenario1Lines with
  | .ok r => r.2
  | .error _ => []

/-- The reference circuit after steady-state initialisation. -/
def scenario1Ready : ModuleMap := finaliseGraph scenario1Graph

/-- The reference circuit's state after one button press (a fixed point of
further presses). -/
def scenario1After : ModuleMap :=
  match push_button 20 scenario1Ready (0 : Nat) (fun acc _ _ => acc) with
  | some r => r.1
  | none => []

/-- A graph whose conjunction `c` has two upstream senders (`a` and `b`) but
a memory primed with only one of them — the incomplete priming of
Scenario 4. -/
def gIncomplete : ModuleMap :=
  [("broadcaster", .Broadcast [] ["a"]),
   ("a", .FlipFlop false [("broadcaster", .NotSeen)] ["c"]),
   ("b", .FlipFlop false [] ["c"]),
   ("c", .Conjunction [("a", .Low)] ["out"])]

/-- A graph violating the Part B structural assumption: the target `rx` has
four predecessors, none of which is a Conjunction, yet every watched name
receives a Low on the first press. -/
def gPart2 : ModuleMap :=
  [("broadcaster", .Broadcast [] ["mp", "qt", "qb", "ng"]),
   ("mp", .FlipFlop false [] ["rx"]),
   ("qt", .FlipFlop false [] ["rx"]),
   ("qb", .FlipFlop false [] ["rx"]),
   ("ng", .FlipFlop false [] ["rx"])]

/-- Lookup after insertion: the inserted key reads back the inserted value,
every other key is unaffected. -/
theorem lookupA_insertA {α : Type} (l : List (Name × α)) (k n : Name) (v : α) :
    lookupA (insertA l k v) n = if k = n then some v else lookupA l n := by
  induction l with
  | nil => simp [insertA, lookupA]
  | cons hd tl ih =>
    obtain ⟨k0, w⟩ := hd
    simp only [insertA]
    by_cases h1 : k0 = k
    · subst h1
      by_cases h2 : k0 = n <;> simp [lookupA, h2]
    · simp only [if_neg h1, lookupA]
      by_cases h2 : k0 = n
      · subst h2
        have hkn : ¬k = k0 := fun h => h1 h.symm
        simp [hkn]
      · simp [h2, ih]

/-- Insertion never produces the empty map. -/
theorem insertA_ne_nil {α : Type} (l : List (Name × α)) (k : Name) (v : α) :
    insertA l k v ≠ [] := by
  cases l with
  | nil => simp [insertA]
  | cons hd tl =>
    obtain ⟨k0, w⟩ := hd
    simp only [insertA]
    split <;> simp

theorem allSame_foldl_none (l : List Pulse) :
    l.foldl (fun acc this => if acc = some this then acc else none) none
      = none := by
  induction l with
  | nil => rfl
  | cons hd tl ih => simpa using ih

theorem allSame_foldl_some (l : List Pulse) (p : Pulse) :
    l.foldl (fun acc this => if acc = some this then acc else none) (some p)
      = if ∀ v ∈ l, v = p then some p else none := by
  induction l with
  | nil => simp
  | cons hd tl ih =>
    by_cases h : p = hd
    · subst h
      by_cases hall : ∀ v ∈ tl, v = p <;> simp [ih, hall]
    · have hstep : ¬(some p = some hd) := by simp [h]
      have hne : ¬(hd = p ∧ ∀ a ∈ tl, a = p) := fun hc => h hc.1.symm
      simp [hstep, allSame_foldl_none, hne]

/-- Unfolding of `allSame` on a nonempty list. -/
theorem allSame_cons (hd : Pulse) (tl : List Pulse) :
    allSame (hd :: tl) = if ∀ v ∈ tl, v = hd then some hd else none := by
  simp only [allSame, List.head?_cons, List.foldl_cons]
  rw [if_pos trivial]
  exact allSame_foldl_some tl hd

/-- The `all_same` fold recognises exactly the constant lists. -/
theorem allSame_eq_some (vals : List Pulse) (p : Pulse) :
    allSame vals = some p ↔ vals ≠ [] ∧ ∀ v ∈ vals, v = p := by
  cases vals with
  | nil => simp [allSame]
  | cons hd tl =>
    rw [allSame_cons]
    by_cases hall : ∀ v ∈ tl, v = hd
    · rw [if_pos hall]
      constructor
      · intro h
        obtain rfl : hd = p := by simpa using h
        refine ⟨by simp, ?_⟩
        intro v hv
        rcases List.mem_cons.1 hv with rfl | hv2
        · rfl
        · exact hall v hv2
      · rintro ⟨-, hv⟩
        rw [hv hd (List.mem_cons_self hd tl)]
    · rw [if_neg hall]
      constructor
      · intro h; cases h
      · rintro ⟨-, hv⟩
        refine absurd (fun v hvm => ?_) hall
        rw [hv v (List.mem_cons_of_mem hd hvm),
          hv hd (List.mem_cons_self hd tl)]

/-- The conjunction's output: `Low` exactly when the memory is nonempty and
all-`High`, otherwise `High`. -/
theorem conjOut_eq (vals : List Pulse) :
    conjOut vals =
      if vals ≠ [] ∧ ∀ v ∈ vals, v = Pulse.High then Pulse.Low
      else Pulse.High := by
  by_cases h : vals ≠ [] ∧ ∀ v ∈ vals, v = Pulse.High
  · rw [if_pos h, conjOut, (allSame_eq_some vals Pulse.High).2 h]
  · rw [if_neg h]
    unfold conjOut
    match hs : allSame vals with
    | some Pulse.High => exact absurd ((allSame_eq_some vals Pulse.High).1 hs) h
    | some Pulse.Low => rfl
    | some Pulse.NotSeen => rfl
    | none => rfl

/-- C1: delivering `(S, L, C)` to a Conjunction module first writes `L` into
the memory entry for `S`, then emits to every output the level `Low` when
every value in the updated memory is `High` and `High` otherwise; and a
two-input Conjunction emits `Low` exactly when both memory entries are
`High`. -/
theorem conjunction_transition_correct (st : ModuleMap) (S C : Name)
    (L : Pulse) (mem : Inputs) (outs : List Name)
    (h : lookupA st C = some (.Conjunction mem outs)) :
    deliverPulse st (S, L, C) =
      (insertA st C (.Conjunction (insertA mem S L) outs),
       outs.map fun o =>
         (C,
          if ∀ v ∈ (insertA mem S L).map Prod.snd, v = Pulse.High then
            Pulse.Low
          else Pulse.High,
          o)) ∧
    (∀ pa pb : Pulse,
       conjOut [pa, pb] = Pulse.Low ↔ pa = Pulse.High ∧ pb = Pulse.High) := by
  constructor
  · have hvals : (insertA mem S L).map Prod.snd ≠ [] := by
      intro hc
      exact insertA_ne_nil mem S L (List.map_eq_nil_iff.1 hc)
    have hout : conjOut ((insertA mem S L).map Prod.snd) =
        if ∀ v ∈ (insertA mem S L).map Prod.snd, v = Pulse.High then
          Pulse.Low
        else Pulse.High := by
      rw [conjOut_eq]
      exact if_congr (and_iff_right hvals) rfl rfl
    simp only [deliverPulse, h, moduleTransition, hout]
  · intro pa pb
    cases pa <;> cases pb <;> decide

/-- Witness for C1 at a concrete one-entry conjunction. -/
theorem conjunction_transition_correct_witness :
    lookupA [("inv", Module.Conjunction [("c", Pulse.Low)] ["a"])] "inv"
        = some (.Conjunction [("c", Pulse.Low)] ["a"]) ∧
    (deliverPulse [("inv", Module.Conjunction [("c", Pulse.Low)] ["a"])]
        ("c", Pulse.High, "inv") =
      (insertA [("inv", Module.Conjunction [("c", Pulse.Low)] ["a"])] "inv"
        (.Conjunction (insertA [("c", Pulse.Low)] "c" Pulse.High) ["a"]),
       ["a"].map fun o =>
         ("inv",
          if ∀ v ∈ (insertA [("c", Pulse.Low)] "c" Pulse.High).map Prod.snd,
              v = Pulse.High then
            Pulse.Low
          else Pulse.High,
          o)) ∧
     (∀ pa pb : Pulse,
        conjOut [pa, pb] = Pulse.Low ↔
          pa = Pulse.High ∧ pb = Pulse.High)) :=
  ⟨by decide,
   conjunction_transition_correct _ "c" "inv" Pulse.High _ _ (by decide)⟩

/-- C2: a FlipFlop ignores a `High` pulse (its `on` flag is unchanged and
nothing is emitted, only the input map records the pulse), and on a `Low`
pulse it toggles `on` and emits `High` to every output when now on, else
`Low` to every output. -/
theorem flipflop_transition_correct (st : ModuleMap) (S F : Name)
    (isOn : Bool) (ins : Inputs) (outs : List Name)
    (h : lookupA st F = some (.FlipFlop isOn ins outs)) :
    deliverPulse st (S, Pulse.High, F) =
      (insertA st F (.FlipFlop isOn (insertA ins S Pulse.High) outs), []) ∧
    deliverPulse st (S, Pulse.Low, F) =
      (insertA st F (.FlipFlop (!isOn) (insertA ins S Pulse.Low) outs),
       outs.map fun o =>
         (F, if !isOn then Pulse.High else Pulse.Low, o)) := by
  constructor <;> simp [deliverPulse, h, moduleTransition]

/-- Witness for C2 at a concrete flip-flop. -/
theorem flipflop_transition_correct_witness :
    lookupA [("a", Module.FlipFlop false [] ["b"])] "a"
        = some (.FlipFlop false [] ["b"]) ∧
    (deliverPulse [("a", Module.FlipFlop false [] ["b"])]
        ("broadcaster", Pulse.High, "a") =
      (insertA [("a", Module.FlipFlop false [] ["b"])] "a"
        (.FlipFlop false (insertA [] "broadcaster" Pulse.High) ["b"]), []) ∧
     deliverPulse [("a", Module.FlipFlop false [] ["b"])]
        ("broadcaster", Pulse.Low, "a") =
      (insertA [("a", Module.FlipFlop false [] ["b"])] "a"
        (.FlipFlop (!false) (insertA [] "broadcaster" Pulse.Low) ["b"]),
       ["b"].map fun o =>
         ("a", if !false then Pulse.High else Pulse.Low, o))) :=
  ⟨by decide,
   flipflop_transition_correct _ "broadcaster" "a" false [] ["b"] (by decide)⟩

/-- Pulses already in the queue are dequeued first, in order: the trace of a
run started on `a ++ b` begins with `a`, and the rest is a run on `b`
followed by whatever was emitted while draining `a`. -/
theorem runTrace_append_left (a : List PulseT) :
    ∀ (fuel : Nat) (st : ModuleMap) (b : List PulseT), a.length ≤ fuel →
      ∃ st2 ext, runTrace fuel st (a ++ b)
        = a ++ runTrace (fuel - a.length) st2 (b ++ ext) := by
  induction a with
  | nil =>
    intro fuel st b _
    exact ⟨st, [], by simp⟩
  | cons p a2 ih =>
    intro fuel st b hlen
    cases fuel with
    | zero => exact absurd hlen (by simp)
    | succ f =>
      have h1 : a2.length ≤ f := Nat.le_of_succ_le_succ hlen
      obtain ⟨st2, ext, hrec⟩ :=
        ih f (deliverPulse st p).1 (b ++ (deliverPulse st p).2) h1
      refine ⟨st2, (deliverPulse st p).2 ++ ext, ?_⟩
      have hassoc : (a2 ++ b) ++ (deliverPulse st p).2
          = a2 ++ (b ++ (deliverPulse st p).2) := by
        simp [List.append_assoc]
      simp only [List.cons_append, runTrace, List.append_eq]
      rw [hassoc, hrec]
      simp [Nat.succ_sub_succ, List.append_assoc]

/-- C3: the scheduler is strictly FIFO.  First conjunct: processing the
front pulse appends its emissions at the back of the queue.  Second
conjunct: for any split `a ++ b` of the queue, all of `a` and then all of
`b` are dequeued (in order) before anything enqueued later, so a pulse
already in the queue is always processed before any pulse enqueued behind
it. -/
theorem fifo_processing_order :
    (∀ (st : ModuleMap) (p : PulseT) (rest : List PulseT) (fuel : Nat),
       runTrace (fuel + 1) st (p :: rest) =
         p :: runTrace fuel (deliverPulse st p).1
           (rest ++ (deliverPulse st p).2)) ∧
    (∀ (fuel : Nat) (st : ModuleMap) (a b : List PulseT),
       a.length + b.length ≤ fuel →
       ∃ t, runTrace fuel st (a ++ b) = a ++ (b ++ t)) := by
  constructor
  · intro st p rest fuel
    rfl
  · intro fuel st a b hlen
    obtain ⟨st2, ext, h1⟩ :=
      runTrace_append_left a fuel st b (le_trans (Nat.le_add_right _ _) hlen)
    have h2 : b.length ≤ fuel - a.length := by omega
    obtain ⟨st3, ext2, h3⟩ :=
      runTrace_append_left b (fuel - a.length) st2 ext h2
    exact ⟨runTrace (fuel - a.length - b.length) st3 (ext ++ ext2),
      by rw [h1, h3]⟩

/-- Witness for C3: a concrete two-pulse queue is processed in queue order. -/
theorem fifo_processing_order_witness :
    (1 : Nat) + 1 ≤ 5 ∧
    ∃ t, runTrace 5 ([] : ModuleMap)
        ([("x", Pulse.Low, "y")] ++ [("z", Pulse.High, "w")])
      = [("x", Pulse.Low, "y")] ++ ([("z", Pulse.High, "w")] ++ t) :=
  ⟨by decide,
   fifo_processing_order.2 5 [] [("x", Pulse.Low, "y")]
     [("z", Pulse.High, "w")] (by decide)⟩

/-- C8 (amended): each dequeued pulse produces exactly one observer
invocation, carrying the pulse's `(level, destination)` — the source is not
passed — and the invocation happens for every dequeued pulse, including
pulses delivered to sinks (the observation precedes the known-module
check). -/
theorem observer_trace_matches_deliveries :
    ∀ (fuel : Nat) (st : ModuleMap) (q : List PulseT),
      obsTrace fuel st q =
        (runTrace fuel st q).map fun p => (p.2.1, p.2.2) := by
  intro fuel
  induction fuel with
  | zero =>
    intro st q
    simp [obsTrace, runTrace]
  | succ f ih =>
    intro st q
    cases q with
    | nil => simp [obsTrace, runTrace]
    | cons p rest => simp [obsTrace, runTrace, ih]

/-- C8 counterexample: two runs whose sole delivered pulses differ only in
their source produce identical observer-invocation sequences, so the
observer is not invoked with the pulse's source (the Rust call passes only
`&pulse` and `&destination`). -/
theorem observer_not_given_source :
    runTrace 1 [] [("a", Pulse.Low, "t")]
        ≠ runTrace 1 [] [("b", Pulse.Low, "t")] ∧
    obsTrace 1 [] [("a", Pulse.Low, "t")]
        = obsTrace 1 [] [("b", Pulse.Low, "t")] := by
  decide

/-- The kind tag and outputs of a module (its priming-invariant shape). -/
def shapeOf : Module → Nat × List Name
  | .FlipFlop _ _ o => (0, o)
  | .Conjunction _ o => (1, o)
  | .Broadcast _ o => (2, o)

/-- Priming one connection never changes any module's kind or outputs. -/
theorem primeConnection_shape (st : ModuleMap) (sd : Name × Name) (n : Name) :
    (lookupA (primeConnection st sd) n).map shapeOf
      = (lookupA st n).map shapeOf := by
  cases hL : lookupA st sd.2 with
  | none => simp [primeConnection, hL]
  | some m =>
    cases m with
    | FlipFlop isOn ins outs =>
      simp only [primeConnection, hL, lookupA_insertA]
      by_cases hd : sd.2 = n
      · subst hd; simp [hL, shapeOf]
      · simp [hd]
    | Conjunction ins outs =>
      simp only [primeConnection, hL, lookupA_insertA]
      by_cases hd : sd.2 = n
      · subst hd; simp [hL, shapeOf]
      · simp [hd]
    | Broadcast ins outs =>
      simp only [primeConnection, hL, lookupA_insertA]
      by_cases hd : sd.2 = n
      · subst hd; simp [hL, shapeOf]
      · simp [hd]

/-- Priming a connection leaves every other destination untouched. -/
theorem primeConnection_lookup_other (st : ModuleMap) (sd : Name × Name)
    (n : Name) (hd : sd.2 ≠ n) :
    lookupA (primeConnection st sd) n = lookupA st n := by
  cases hL : lookupA st sd.2 with
  | none => simp [primeConnection, hL]
  | some m => cases m <;> simp [primeConnection, hL, lookupA_insertA, hd]

/-- The whole priming fold never changes any module's kind or outputs. -/
theorem foldl_prime_shape (sds : List (Name × Name)) :
    ∀ (st : ModuleMap) (n : Name),
      (lookupA (sds.foldl primeConnection st) n).map shapeOf
        = (lookupA st n).map shapeOf := by
  induction sds with
  | nil => intro st n; rfl
  | cons sd rest ih =>
    intro st n
    rw [List.foldl_cons, ih, primeConnection_shape]

/-- Characterisation of a conjunction's memory after the priming fold: a key
reads `Low` exactly when it is a source of an edge into the conjunction in
the processed list; all other keys read whatever the initial memory held. -/
theorem foldl_prime_conj_mem (sds : List (Name × Name)) :
    ∀ (st : ModuleMap) (n : Name) (mem0 : Inputs) (outs : List Name),
      lookupA st n = some (.Conjunction mem0 outs) →
      ∃ mem, lookupA (sds.foldl primeConnection st) n
          = some (.Conjunction mem outs) ∧
        ∀ m, lookupA mem m =
          if (m, n) ∈ sds then some Pulse.Low else lookupA mem0 m := by
  induction sds with
  | nil =>
    intro st n mem0 outs h
    exact ⟨mem0, h, fun m => by simp⟩
  | cons sd rest ih =>
    intro st n mem0 outs h
    obtain ⟨s, d⟩ := sd
    rw [List.foldl_cons]
    by_cases hd : d = n
    · subst hd
      have hstep : primeConnection st (s, d)
          = insertA st d (.Conjunction (insertA mem0 s .Low) outs) := by
        simp [primeConnection, h]
      have hlook : lookupA (primeConnection st (s, d)) d
          = some (.Conjunction (insertA mem0 s .Low) outs) := by
        rw [hstep, lookupA_insertA, if_pos rfl]
      obtain ⟨mem, hm, hchar⟩ :=
        ih (primeConnection st (s, d)) d (insertA mem0 s .Low) outs hlook
      refine ⟨mem, hm, ?_⟩
      intro m
      rw [hchar m]
      by_cases hmem : (m, d) ∈ rest
      · rw [if_pos hmem, if_pos (List.mem_cons_of_mem _ hmem)]
      · rw [if_neg hmem, lookupA_insertA]
        by_cases hms : s = m
        · subst hms
          rw [if_pos rfl, if_pos (List.mem_cons_self _ _)]
        · have hnc : ¬(m, d) ∈ (s, d) :: rest := by
            rintro hmc
            rcases List.mem_cons.1 hmc with heq | hr
            · exact hms (congrArg Prod.fst heq).symm
            · exact hmem hr
          rw [if_neg hms, if_neg hnc]
    · have hlook : lookupA (primeConnection st (s, d)) n = lookupA st n :=
        primeConnection_lookup_other st (s, d) n hd
      obtain ⟨mem, hm, hchar⟩ :=
        ih (primeConnection st (s, d)) n mem0 outs (by rw [hlook]; exact h)
      refine ⟨mem, hm, ?_⟩
      intro m
      rw [hchar m]
      have hiff : (m, n) ∈ rest ↔ (m, n) ∈ (s, d) :: rest := by
        constructor
        · exact List.mem_cons_of_mem _
        · rintro hmc
          rcases List.mem_cons.1 hmc with heq | hr
          · exact absurd (congrArg Prod.snd heq) (fun hh => hd hh.symm)
          · exact hr
      exact if_congr hiff rfl rfl

/-- Every conjunction in the map has (so far) an empty memory — the state
of every parsed graph before initialisation. -/
def ConjMemsEmpty (st : ModuleMap) : Prop :=
  ∀ n mem outs, lookupA st n = some (.Conjunction mem outs) → mem = []

/-- A module produced by line classification that is a conjunction has an
empty memory. -/
theorem parseModuleDef_conj_empty (mtn : String) (outs0 : List Name)
    (n : Name) (mem : Inputs) (o2 : List Name)
    (h : parseModuleDef mtn outs0 = .ok (n, .Conjunction mem o2)) :
    mem = [] := by
  unfold parseModuleDef at h
  split at h
  · split at h <;> simp_all
  · simp_all
  · simp only [Except.ok.injEq, Prod.mk.injEq, Module.Conjunction.injEq] at h
    exact h.2.1.symm
  · simp_all

/-- `parse_line` preserves emptiness of conjunction memories. -/
theorem parse_line_conj_empty (ist : String × ModuleMap) (l : String)
    (ist2 : String × ModuleMap) (hE : ConjMemsEmpty ist.2)
    (hp : parse_line ist l = .ok ist2) : ConjMemsEmpty ist2.2 := by
  unfold parse_line at hp
  rcases hr : readWordGo [] l.data with ⟨ow, rest⟩
  rw [hr] at hp
  cases ow with
  | none =>
    simp only [Except.ok.injEq] at hp
    rw [← hp]
    exact hE
  | some wpair =>
    obtain ⟨mtn, dl⟩ := wpair
    simp only [] at hp
    cases hpm : parseModuleDef mtn (readWords rest) with
    | error e => rw [hpm] at hp; cases hp
    | ok nm =>
      rw [hpm] at hp
      obtain ⟨nn, mm⟩ := nm
      simp only [Except.map, Except.ok.injEq] at hp
      rw [← hp]
      show ConjMemsEmpty (insertA ist.2 nn mm)
      intro n mem outs hlk
      rw [lookupA_insertA] at hlk
      by_cases hnn : nn = n
      · rw [if_pos hnn] at hlk
        have hmm : mm = .Conjunction mem outs := by
          injection hlk
        rw [hmm] at hpm
        exact parseModuleDef_conj_empty mtn (readWords rest) nn mem outs hpm
      · rw [if_neg hnn] at hlk
        exact hE n mem outs hlk

/-- `parseLines` starting anywhere with empty conjunction memories keeps
them empty. -/
theorem parseLines_conj_empty (ls : List String) :
    ∀ (ist ist2 : String × ModuleMap), ConjMemsEmpty ist.2 →
      parseLines ist ls = .ok ist2 → ConjMemsEmpty ist2.2 := by
  induction ls with
  | nil =>
    intro ist ist2 hE hp
    unfold parseLines at hp
    simp only [Except.ok.injEq] at hp
    rw [← hp]
    exact hE
  | cons l rest ih =>
    intro ist ist2 hE hp
    unfold parseLines at hp
    cases hpl : parse_line ist l with
    | ok istm =>
      rw [hpl] at hp
      exact ih istm ist2 (parse_line_conj_empty ist l istm hE hpl) hp
    | error e => rw [hpl] at hp; cases hp

/-- C4: on every graph produced by the parser (from the empty map), the
steady-state initialiser leaves every conjunction's memory holding exactly
the level `Low` for exactly the sources of edges into it. -/
theorem finalise_primes_conjunctions (ls : List String) (o0 : String)
    (res : String × ModuleMap)
    (hp : parseLines (o0, []) ls = .ok res) :
    ∀ (n : Name) (mem : Inputs) (outs : List Name),
      lookupA (finaliseGraph res.2) n = some (.Conjunction mem outs) →
      ∀ (m : Name) (v : Pulse),
        lookupA mem m = some v ↔
          ((m, n) ∈ sourceDestinations res.2 ∧ v = Pulse.Low) := by
  intro n mem outs hlk m v
  have hE : ConjMemsEmpty res.2 :=
    parseLines_conj_empty ls (o0, []) res
      (fun n2 mem2 outs2 h2 => by simp [lookupA] at h2) hp
  have hshape := foldl_prime_shape (sourceDestinations res.2) res.2 n
  rw [show (sourceDestinations res.2).foldl primeConnection res.2
      = finaliseGraph res.2 from rfl, hlk] at hshape
  cases hbase : lookupA res.2 n with
  | none => rw [hbase] at hshape; cases hshape
  | some m0 =>
    rw [hbase] at hshape
    cases m0 with
    | FlipFlop i2 i3 o3 => simp [shapeOf] at hshape
    | Broadcast i3 o3 => simp [shapeOf] at hshape
    | Conjunction mem0 outs0 =>
      have houts : outs = outs0 := by
        simpa [shapeOf] using hshape
      have hmem0 : mem0 = [] := hE n mem0 outs0 hbase
      subst houts
      subst hmem0
      obtain ⟨mem2, hm2, hchar⟩ :=
        foldl_prime_conj_mem (sourceDestinations res.2) res.2 n [] outs hbase
      have hmm : mem2 = mem := by
        rw [show (sourceDestinations res.2).foldl primeConnection res.2
            = finaliseGraph res.2 from rfl, hlk] at hm2
        simp only [Option.some.injEq, Module.Conjunction.injEq] at hm2
        exact hm2.1.symm
      subst hmm
      rw [hchar m]
      by_cases hmem : (m, n) ∈ sourceDestinations res.2
      · simp only [if_pos hmem, Option.some.injEq]
        constructor
        · intro hv; exact ⟨hmem, hv.symm⟩
        · intro hv; exact hv.2.symm
      · simp [if_neg hmem, lookupA, hmem]

/-- Witness for C4 on the two-line circuit `broadcaster -> c; &c -> a`. -/
theorem finalise_primes_conjunctions_witness :
    parseLines ("x", []) ["broadcaster -> c", "&c -> a"]
      = .ok ("x", [("broadcaster", Module.Broadcast [] ["c"]),
                   ("c", Module.Conjunction [] ["a"])]) ∧
    lookupA (finaliseGraph [("broadcaster", Module.Broadcast [] ["c"]),
                            ("c", Module.Conjunction [] ["a"])]) "c"
      = some (.Conjunction [("broadcaster", Pulse.Low)] ["a"]) ∧
    (lookupA [("broadcaster", Pulse.Low)] "broadcaster" = some Pulse.Low ↔
      (("broadcaster", "c") ∈
          sourceDestinations [("broadcaster", Module.Broadcast [] ["c"]),
                              ("c", Module.Conjunction [] ["a"])] ∧
        Pulse.Low = Pulse.Low)) :=
  ⟨by rfl, by decide,
   finalise_primes_conjunctions ["broadcaster -> c", "&c -> a"] "x"
     ("x", [("broadcaster", Module.Broadcast [] ["c"]),
            ("c", Module.Conjunction [] ["a"])]) (by rfl)
     "c" [("broadcaster", Pulse.Low)] ["a"] (by decide)
     "broadcaster" Pulse.Low⟩

/-- Unrolling one press of the `perform_processing_1` loop. -/
theorem pressTimes_succ (fuel n : Nat) (st st2 : ModuleMap)
    (low high nl nh t : Nat)
    (h : push_button fuel st (0 : Nat) (fun acc _ _ => acc)
      = some (st2, nl, nh, t)) :
    pressTimes fuel (n + 1) st low high
      = pressTimes fuel n st2 (low + nl) (high + nh) := by
  simp only [pressTimes, h]

/-- Pressing from a per-press fixed point accumulates the same counts every
press. -/
theorem pressTimes_fix (fuel : Nat) (st : ModuleMap) (l h : Nat)
    (hfix : push_button fuel st (0 : Nat) (fun acc _ _ => acc)
      = some (st, l, h, 0)) :
    ∀ (n low high : Nat),
      pressTimes fuel n st low high = some (st, low + n * l, high + n * h) := by
  intro n
  induction n with
  | zero => intro low high; simp [pressTimes]
  | succ k ih =>
    intro low high
    rw [pressTimes_succ fuel k st st low high l h 0 hfix, ih]
    have h1 : low + l + k * l = low + (k + 1) * l := by ring
    have h2 : high + h + k * h = high + (k + 1) * h := by ring
    rw [h1, h2]

/-- C5: the five-module reference circuit parses successfully, a single
button press from the initialised state delivers exactly 8 Low and 4 High
pulses (the button pulse included), and 1000 presses give
`low_total * high_total = 32000000`. -/
theorem scenario1_counts :
    exceptOk (parseLines ("a", []) scenario1Lines) = true ∧
    (push_button 20 scenario1Ready (0 : Nat) (fun acc _ _ => acc)).map
        (fun r => (r.2.1, r.2.2.1)) = some (8, 4) ∧
    perform_processing_1 20 scenario1Ready = some 32000000 := by
  refine ⟨by decide, by decide, ?_⟩
  have hfirst : push_button 20 scenario1Ready (0 : Nat) (fun acc _ _ => acc)
      = some (scenario1After, 8, 4, 0) := by decide
  have hfix : push_button 20 scenario1After (0 : Nat) (fun acc _ _ => acc)
      = some (scenario1After, 8, 4, 0) := by decide
  unfold perform_processing_1 NUM_ITERATIONS
  rw [show (1000 : Nat) = 999 + 1 from rfl,
    pressTimes_succ 20 999 scenario1Ready scenario1After 0 0 8 4 0 hfirst,
    pressTimes_fix 20 scenario1After 8 4 hfix 999 (0 + 8) (0 + 4)]
  norm_num

/-- C6 counterexample: a graph whose conjunction `c` is primed with only
one of its two upstream senders is not rejected anywhere: `finalise_state`
returns `Ok`, `push_button` completes, and the conjunction silently emits
`Low` on the strength of its one present (High) memory entry, with the
missing predecessor simply ignored. -/
theorem incomplete_conjunction_not_rejected :
    exceptOk (finalise_state ("rx", gIncomplete)) = true ∧
    (push_button 10 gIncomplete (0 : Nat) (fun acc _ _ => acc)).isSome
        = true ∧
    runTrace 10 gIncomplete [("button", Pulse.Low, "broadcaster")] =
      [("button", Pulse.Low, "broadcaster"),
       ("broadcaster", Pulse.Low, "a"),
       ("a", Pulse.High, "c"),
       ("c", Pulse.Low, "out")] := by
  refine ⟨rfl, by decide, by decide⟩

/-- C6 (amended): the initialiser has no error path — `finalise_state`
always returns `Ok` — and a conjunction with an incompletely primed memory
is processed without any error: the missing entry is simply absent from the
all-`High` check, so `c` here emits `Low` although its second predecessor
never sent anything. -/
theorem initializer_never_fails :
    (∀ (o : String) (st : ModuleMap),
       finalise_state (o, st) = .ok (o, finaliseGraph st)) ∧
    deliverPulse gIncomplete ("a", Pulse.High, "c") =
      (insertA gIncomplete "c" (.Conjunction [("a", Pulse.High)] ["out"]),
       [("c", Pulse.Low, "out")]) :=
  ⟨fun o st => rfl, by decide⟩

/-- C7 (amended): the Part B analyzer performs no structural validation of
the target's predecessors: whenever its press loop completes with recorded
first-Low press numbers for the four hard-coded names, it returns their
lcm, regardless of any property of the graph. -/
theorem part2_returns_lcm_unconditionally (outerFuel fuel : Nat)
    (st : ModuleMap) (nums : List (Name × Nat)) (mp qt qb ng : Nat)
    (hl : pp2Loop fuel outerFuel st 0 [] = some nums)
    (hmp : lookupA nums "mp" = some mp)
    (hqt : lookupA nums "qt" = some qt)
    (hqb : lookupA nums "qb" = some qb)
    (hng : lookupA nums "ng" = some ng) :
    perform_processing_2 outerFuel fuel st =
      some (Nat.lcm (Nat.lcm (Nat.lcm mp qt) qb) ng) := by
  unfold perform_processing_2
  rw [hl]
  simp [Option.bind, hmp, hqt, hqb, hng]

/-- Witness for the amended C7 on the concrete graph `gPart2`. -/
theorem part2_returns_lcm_unconditionally_witness :
    pp2Loop 30 5 gPart2 0 []
        = some [("mp", 1), ("qt", 1), ("qb", 1), ("ng", 1)] ∧
    perform_processing_2 5 30 gPart2
      = some (Nat.lcm (Nat.lcm (Nat.lcm 1 1) 1) 1) :=
  ⟨by decide,
   part2_returns_lcm_unconditionally 5 30 gPart2
     [("mp", 1), ("qt", 1), ("qb", 1), ("ng", 1)] 1 1 1 1
     (by decide) (by decide) (by decide) (by decide) (by decide)⟩

/-- C7 counterexample: on `gPart2` the target `rx` has four predecessors —
none of them a Conjunction — yet `perform_processing_2` does not fail: it
happily returns the (meaningless) answer 1. -/
theorem part2_no_structural_check :
    perform_processing_2 5 30 gPart2 = some 1 ∧
    ((sourceDestinations gPart2).filter (fun sd => sd.2 == "rx")).map
        Prod.fst = ["mp", "qt", "qb", "ng"] ∧
    (["mp", "qt", "qb", "ng"].all fun n =>
      match lookupA gPart2 n with
      | some (.Conjunction _ _) => false
      | _ => true) = true := by
  refine ⟨by decide, by decide, by decide⟩

/-- The module definition denoted by a line, when the line parses: the name
and module that `parse_line` would insert. -/
def lineModule (line : String) : Option (Name × Module) :=
  match readWordGo [] line.data with
  | (none, _) => none
  | (some (mtn, _), rest) => (parseModuleDef mtn (readWords rest)).toOption

/-- `parse_line` on a line denoting a module definition succeeds and inserts
that definition. -/
theorem parse_line_of_lineModule (ist : String × ModuleMap) (l : String)
    (n : Name) (m : Module) (h : lineModule l = some (n, m)) :
    parse_line ist l = .ok (ist.1, insertA ist.2 n m) := by
  unfold lineModule at h
  unfold parse_line
  rcases hr : readWordGo [] l.data with ⟨ow, rest⟩
  rw [hr] at h
  cases ow with
  | none => simp at h
  | some wpair =>
    obtain ⟨mtn, dl⟩ := wpair
    simp only [] at h ⊢
    cases hpm : parseModuleDef mtn (readWords rest) with
    | error e => rw [hpm] at h; simp [Except.toOption] at h
    | ok nm =>
      rw [hpm] at h
      simp only [Except.toOption, Option.some.injEq] at h
      rw [h]
      rfl

/-- C10: duplicate module definitions are not an error: if two lines both
define a module named `n`, parsing the first then the second succeeds from
any state, and the resulting graph maps `n` to the module of the later
line. -/
theorem duplicate_definitions_last_wins (ist : String × ModuleMap)
    (l1 l2 : String) (n : Name) (m1 m2 : Module)
    (h1 : lineModule l1 = some (n, m1))
    (h2 : lineModule l2 = some (n, m2)) :
    ∃ st1, parse_line ist l1 = .ok (ist.1, st1) ∧
      parse_line (ist.1, st1) l2 = .ok (ist.1, insertA st1 n m2) ∧
      lookupA (insertA st1 n m2) n = some m2 := by
  refine ⟨insertA ist.2 n m1,
    parse_line_of_lineModule ist l1 n m1 h1,
    parse_line_of_lineModule (ist.1, insertA ist.2 n m1) l2 n m2 h2, ?_⟩
  rw [lookupA_insertA, if_pos rfl]

/-- Witness for C10: `%a -> b` then `&a -> c` both define `a`; the second
silently replaces the first. -/
theorem duplicate_definitions_last_wins_witness :
    lineModule "%a -> b" = some ("a", .FlipFlop false [] ["b"]) ∧
    lineModule "&a -> c" = some ("a", .Conjunction [] ["c"]) ∧
    ∃ st1, parse_line ("x", ([] : ModuleMap)) "%a -> b" = .ok ("x", st1) ∧
      parse_line ("x", st1) "&a -> c"
        = .ok ("x", insertA st1 "a" (.Conjunction [] ["c"])) ∧
      lookupA (insertA st1 "a" (.Conjunction [] ["c"])) "a"
        = some (.Conjunction [] ["c"]) :=
  ⟨by decide, by decide,
   duplicate_definitions_last_wins ("x", []) "%a -> b" "&a -> c" "a"
     (.FlipFlop false [] ["b"]) (.Conjunction [] ["c"])
     (by decide) (by decide)⟩

/-- Two hash maps with the same contents, listed in possibly different
iteration orders: duplicate-free keys and a permutation of the entries. -/
def InputsEquiv (i1 i2 : Inputs) : Prop :=
  (i1.map Prod.fst).Nodup ∧ (i2.map Prod.fst).Nodup ∧ i1.Perm i2

/-- Module equality up to the iteration order of the `inputs` hash map. -/
def ModEquiv : Module → Module → Prop
  | .FlipFlop o1 i1 u1, .FlipFlop o2 i2 u2 =>
      o1 = o2 ∧ InputsEquiv i1 i2 ∧ u1 = u2
  | .Conjunction i1 u1, .Conjunction i2 u2 => InputsEquiv i1 i2 ∧ u1 = u2
  | .Broadcast i1 u1, .Broadcast i2 u2 => InputsEquiv i1 i2 ∧ u1 = u2
  | _, _ => False

/-- Graph equality up to the iteration order of each module's memory. -/
def StateEquiv (s1 s2 : ModuleMap) : Prop :=
  List.Forall₂ (fun a b => a.1 = b.1 ∧ ModEquiv a.2 b.2) s1 s2

theorem keys_insertA_subset {α : Type} (l : List (Name × α)) (k : Name)
    (v : α) (a : Name) (h : a ∈ (insertA l k v).map Prod.fst) :
    a ∈ l.map Prod.fst ∨ a = k := by
  induction l with
  | nil =>
    simp [insertA] at h
    exact Or.inr h
  | cons hd tl ih =>
    obtain ⟨k0, w⟩ := hd
    simp only [insertA] at h
    by_cases hk : k0 = k
    · rw [if_pos hk] at h
      simp only [List.map_cons, List.mem_cons] at h
      rcases h with rfl | h
      · exact Or.inr rfl
      · exact Or.inl (by simp only [List.map_cons, List.mem_cons]; exact Or.inr h)
    · rw [if_neg hk] at h
      simp only [List.map_cons, List.mem_cons] at h
      rcases h with rfl | h
      · exact Or.inl (by simp)
      · rcases ih h with h2 | h2
        · exact Or.inl (by simp only [List.map_cons, List.mem_cons]; exact Or.inr h2)
        · exact Or.inr h2

theorem nodup_keys_insertA {α : Type} (l : List (Name × α)) (k : Name)
    (v : α) (h : (l.map Prod.fst).Nodup) :
    ((insertA l k v).map Prod.fst).Nodup := by
  induction l with
  | nil => simp [insertA]
  | cons hd tl ih =>
    obtain ⟨k0, w⟩ := hd
    simp only [List.map_cons, List.nodup_cons] at h
    obtain ⟨hk0, htl⟩ := h
    simp only [insertA]
    by_cases hk : k0 = k
    · rw [if_pos hk]
      subst hk
      simp only [List.map_cons, List.nodup_cons]
      exact ⟨hk0, htl⟩
    · rw [if_neg hk]
      simp only [List.map_cons, List.nodup_cons]
      refine ⟨?_, ih htl⟩
      intro hmem
      rcases keys_insertA_subset tl k v k0 hmem with h2 | h2
      · exact hk0 h2
      · exact hk h2

/-- On duplicate-free maps, insertion respects entry permutation. -/
theorem insertA_perm {α : Type} (k : Name) (v : α) :
    ∀ {l1 l2 : List (Name × α)}, l1.Perm l2 → (l1.map Prod.fst).Nodup →
      (insertA l1 k v).Perm (insertA l2 k v) := by
  intro l1 l2 hp
  induction hp with
  | nil => intro _; exact List.Perm.refl _
  | cons x p ih =>
    intro hnd
    obtain ⟨k0, w⟩ := x
    simp only [insertA]
    by_cases hk : k0 = k
    · rw [if_pos hk, if_pos hk]
      exact p.cons _
    · rw [if_neg hk, if_neg hk]
      refine List.Perm.cons _ (ih ?_)
      simp only [List.map_cons, List.nodup_cons] at hnd
      exact hnd.2
  | swap x y l =>
    intro hnd
    obtain ⟨kx, wx⟩ := x
    obtain ⟨ky, wy⟩ := y
    have hxy : ky ≠ kx := by
      simp only [List.map_cons, List.nodup_cons, List.mem_cons] at hnd
      exact fun h => hnd.1 (Or.inl h)
    simp only [insertA]
    by_cases hky : ky = k
    · have hkx : ¬kx = k := fun h => hxy (hky.trans h.symm)
      simp only [if_pos hky, if_neg hkx]
      exact List.Perm.swap (kx, wx) (k, v) l
    · by_cases hkx : kx = k
      · simp only [if_neg hky, if_pos hkx]
        exact List.Perm.swap (k, v) (ky, wy) l
      · simp only [if_neg hky, if_neg hkx]
        exact List.Perm.swap (kx, wx) (ky, wy) (insertA l k v)
  | trans p1 p2 ih1 ih2 =>
    intro hnd
    exact (ih1 hnd).trans (ih2 ((p1.map Prod.fst).nodup hnd))

theorem InputsEquiv_insert (i1 i2 : Inputs) (k : Name) (v : Pulse)
    (h : InputsEquiv i1 i2) :
    InputsEquiv (insertA i1 k v) (insertA i2 k v) :=
  ⟨nodup_keys_insertA i1 k v h.1, nodup_keys_insertA i2 k v h.2.1,
   insertA_perm k v h.2.2 h.1⟩

/-- The conjunction decision is invariant under any reordering of the
memory values (the `all_same` test only asks whether all are `High`). -/
theorem conjOut_perm (v1 v2 : List Pulse) (hp : v1.Perm v2) :
    conjOut v1 = conjOut v2 := by
  rw [conjOut_eq, conjOut_eq]
  have hnil : v1 = [] ↔ v2 = [] := by
    constructor
    · intro h
      subst h
      exact (hp.symm.eq_nil)
    · intro h
      subst h
      exact hp.eq_nil
  have hmem : (∀ v ∈ v1, v = Pulse.High) ↔ (∀ v ∈ v2, v = Pulse.High) := by
    constructor
    · intro ha v hv
      exact ha v (hp.mem_iff.2 hv)
    · intro ha v hv
      exact ha v (hp.mem_iff.1 hv)
  exact if_congr (and_congr (not_congr hnil) hmem) rfl rfl

/-- The module transition respects memory-order equivalence: equivalent
modules step to equivalent modules and emit identical pulses. -/
theorem moduleTransition_equiv (s : Name) (p : Pulse) (d : Name)
    (m1 m2 : Module) (h : ModEquiv m1 m2) :
    ModEquiv (moduleTransition s p d m1).1 (moduleTransition s p d m2).1 ∧
    (moduleTransition s p d m1).2 = (moduleTransition s p d m2).2 := by
  cases m1 with
  | FlipFlop o1 i1 u1 =>
    cases m2 with
    | FlipFlop o2 i2 u2 =>
      obtain ⟨ho, hi, hu⟩ := h
      subst ho; subst hu
      by_cases hp : p = .Low
      · subst hp
        exact ⟨⟨rfl, InputsEquiv_insert i1 i2 s .Low hi, rfl⟩, rfl⟩
      · simp only [moduleTransition, if_neg hp]
        exact ⟨⟨rfl, InputsEquiv_insert i1 i2 s p hi, rfl⟩, trivial⟩
    | Conjunction i2 u2 => exact False.elim h
    | Broadcast i2 u2 => exact False.elim h
  | Conjunction i1 u1 =>
    cases m2 with
    | FlipFlop o2 i2 u2 => exact False.elim h
    | Conjunction i2 u2 =>
      obtain ⟨hi, hu⟩ := h
      subst hu
      have hins := InputsEquiv_insert i1 i2 s p hi
      have hout : conjOut ((insertA i1 s p).map Prod.snd)
          = conjOut ((insertA i2 s p).map Prod.snd) :=
        conjOut_perm _ _ (hins.2.2.map Prod.snd)
      constructor
      · exact ⟨hins, rfl⟩
      · simp only [moduleTransition, hout]
    | Broadcast i2 u2 => exact False.elim h
  | Broadcast i1 u1 =>
    cases m2 with
    | FlipFlop o2 i2 u2 => exact False.elim h
    | Conjunction i2 u2 => exact False.elim h
    | Broadcast i2 u2 =>
      obtain ⟨hi, hu⟩ := h
      subst hu
      exact ⟨⟨InputsEquiv_insert i1 i2 s p hi, rfl⟩, rfl⟩

/-- Equivalent states agree on which destinations exist, and looked-up
modules are equivalent. -/
theorem lookupA_equiv (s1 s2 : ModuleMap) (h : StateEquiv s1 s2) (n : Name) :
    (lookupA s1 n = none ∧ lookupA s2 n = none) ∨
    ∃ m1 m2, lookupA s1 n = some m1 ∧ lookupA s2 n = some m2 ∧
      ModEquiv m1 m2 := by
  induction h with
  | nil => exact Or.inl ⟨rfl, rfl⟩
  | @cons a b t1 t2 hab hrest ih =>
    obtain ⟨k1, v1⟩ := a
    obtain ⟨k2, v2⟩ := b
    obtain ⟨hk, hm⟩ := hab
    cases hk
    by_cases hn : k1 = n
    · exact Or.inr ⟨v1, v2, by simp [lookupA, hn], by simp [lookupA, hn], hm⟩
    · simpa [lookupA, hn] using ih

theorem insertA_state_equiv (s1 s2 : ModuleMap) (h : StateEquiv s1 s2)
    (k : Name) (m1 m2 : Module) (hm : ModEquiv m1 m2) :
    StateEquiv (insertA s1 k m1) (insertA s2 k m2) := by
  induction h with
  | nil => exact List.Forall₂.cons ⟨rfl, hm⟩ List.Forall₂.nil
  | @cons a b t1 t2 hab hrest ih =>
    obtain ⟨k1, v1⟩ := a
    obtain ⟨k2, v2⟩ := b
    obtain ⟨hk, hmv⟩ := hab
    cases hk
    simp only [insertA]
    by_cases hn : k1 = k
    · rw [if_pos hn, if_pos hn]
      exact List.Forall₂.cons ⟨rfl, hm⟩ hrest
    · rw [if_neg hn, if_neg hn]
      exact List.Forall₂.cons ⟨rfl, hmv⟩ ih

/-- Delivering the same pulse to equivalent states yields equivalent states
and identical emissions. -/
theorem deliverPulse_equiv (s1 s2 : ModuleMap) (h : StateEquiv s1 s2)
    (p : PulseT) :
    StateEquiv (deliverPulse s1 p).1 (deliverPulse s2 p).1 ∧
    (deliverPulse s1 p).2 = (deliverPulse s2 p).2 := by
  rcases lookupA_equiv s1 s2 h p.2.2 with ⟨h1, h2⟩ | ⟨m1, m2, h1, h2, hm⟩
  · simp only [deliverPulse, h1, h2]
    exact ⟨h, trivial⟩
  · have ht := moduleTransition_equiv p.1 p.2.1 p.2.2 m1 m2 hm
    simp only [deliverPulse, h1, h2]
    exact ⟨insertA_state_equiv s1 s2 h p.2.2 _ _ ht.1, ht.2⟩

/-- Relation between two `pushButtonLoop` results: both out of fuel, or
both successful with equivalent states and identical counts and
observation values. -/
def RunEquiv {T : Type} :
    Option (ModuleMap × Nat × Nat × T) → Option (ModuleMap × Nat × Nat × T)
      → Prop
  | none, none => True
  | some r1, some r2 => StateEquiv r1.1 r2.1 ∧ r1.2 = r2.2
  | _, _ => False

/-- The scheduler loop run on equivalent states from the same queue gives
equal counts and observations and equivalent final states. -/
theorem pushButtonLoop_equiv {T : Type} (f : T → Pulse → Name → T) :
    ∀ (fuel : Nat) (s1 s2 : ModuleMap) (q : List PulseT) (low high : Nat)
      (t : T), StateEquiv s1 s2 →
      RunEquiv (pushButtonLoop f fuel s1 q low high t)
        (pushButtonLoop f fuel s2 q low high t) := by
  intro fuel
  induction fuel with
  | zero =>
    intro s1 s2 q low high t h
    cases q with
    | nil => exact ⟨h, rfl⟩
    | cons p rest => exact trivial
  | succ fl ih =>
    intro s1 s2 q low high t h
    cases q with
    | nil => exact ⟨h, rfl⟩
    | cons p rest =>
      obtain ⟨hst, hem⟩ := deliverPulse_equiv s1 s2 h p
      simp only [pushButtonLoop]
      rw [hem]
      exact ih _ _ _ _ _ _ hst

/-- The press loop of `perform_processing_1` on equivalent states produces
identical `(low, high)` totals. -/
theorem pressTimes_equiv (fuel : Nat) :
    ∀ (n : Nat) (s1 s2 : ModuleMap) (low high : Nat), StateEquiv s1 s2 →
      (pressTimes fuel n s1 low high).map (fun r => (r.2.1, r.2.2))
        = (pressTimes fuel n s2 low high).map (fun r => (r.2.1, r.2.2)) := by
  intro n
  induction n with
  | zero =>
    intro s1 s2 low high h
    simp [pressTimes]
  | succ k ih =>
    intro s1 s2 low high h
    have hrun : RunEquiv
        (push_button fuel s1 (0 : Nat) (fun acc _ _ => acc))
        (push_button fuel s2 (0 : Nat) (fun acc _ _ => acc)) :=
      pushButtonLoop_equiv (fun acc _ _ => acc) fuel s1 s2
        [("button", Pulse.Low, "broadcaster")] 0 0 0 h
    cases h1 : push_button fuel s1 (0 : Nat) (fun acc _ _ => acc) with
    | none =>
      cases h2 : push_button fuel s2 (0 : Nat) (fun acc _ _ => acc) with
      | none => simp only [pressTimes, h1, h2, Option.map_none']
      | some r2 => rw [h1, h2] at hrun; exact False.elim hrun
    | some r1 =>
      cases h2 : push_button fuel s2 (0 : Nat) (fun acc _ _ => acc) with
      | none => rw [h1, h2] at hrun; exact False.elim hrun
      | some r2 =>
        rw [h1, h2] at hrun
        obtain ⟨m1s, l1, n1, t1⟩ := r1
        obtain ⟨m2s, l2, n2, t2⟩ := r2
        obtain ⟨hs, hc⟩ := hrun
        simp only [Prod.mk.injEq] at hc
        obtain ⟨hl, hn, htv⟩ := hc
        subst hl; subst hn
        simp only [pressTimes, h1, h2]
        exact ih m1s m2s (low + l1) (high + n1) hs

/-- C9: the simulation result is deterministic — it does not depend on the
iteration order of the hash-based module memories.  For any two initialised
graphs equal up to memory iteration order and any press count `n`, the
accumulated `(low, high)` counts (and the Part A product) coincide. -/
theorem simulation_deterministic_up_to_memory_order (s1 s2 : ModuleMap)
    (h : StateEquiv s1 s2) (n fuel : Nat) :
    (pressTimes fuel n s1 0 0).map (fun r => (r.2.1, r.2.2))
      = (pressTimes fuel n s2 0 0).map (fun r => (r.2.1, r.2.2)) ∧
    perform_processing_1 fuel s1 = perform_processing_1 fuel s2 := by
  refine ⟨pressTimes_equiv fuel n s1 s2 0 0 h, ?_⟩
  have hmap := pressTimes_equiv fuel NUM_ITERATIONS s1 s2 0 0 h
  unfold perform_processing_1
  cases e1 : pressTimes fuel NUM_ITERATIONS s1 0 0 with
  | none =>
    cases e2 : pressTimes fuel NUM_ITERATIONS s2 0 0 with
    | none => rfl
    | some r2 => rw [e1, e2] at hmap; cases hmap
  | some r1 =>
    cases e2 : pressTimes fuel NUM_ITERATIONS s2 0 0 with
    | none => rw [e1, e2] at hmap; cases hmap
    | some r2 =>
      rw [e1, e2] at hmap
      simp only [Option.map_some', Option.some.injEq, Prod.mk.injEq] at hmap
      simp only [Option.map_some', Option.some.injEq]
      rw [hmap.1, hmap.2]

/-- Witness for C9: the same one-conjunction graph with its two memory
entries listed in the two possible orders. -/
theorem simulation_deterministic_up_to_memory_order_witness :
    (pressTimes 10 2
        [("c", Module.Conjunction [("a", Pulse.Low), ("b", Pulse.High)] ["x"])]
        0 0).map (fun r => (r.2.1, r.2.2))
      = (pressTimes 10 2
        [("c", Module.Conjunction [("b", Pulse.High), ("a", Pulse.Low)] ["x"])]
        0 0).map (fun r => (r.2.1, r.2.2)) ∧
    perform_processing_1 10
        [("c", Module.Conjunction [("a", Pulse.Low), ("b", Pulse.High)] ["x"])]
      = perform_processing_1 10
        [("c", Module.Conjunction [("b", Pulse.High), ("a", Pulse.Low)] ["x"])] :=
  simulation_deterministic_up_to_memory_order
    [("c", Module.Conjunction [("a", Pulse.Low), ("b", Pulse.High)] ["x"])]
    [("c", Module.Conjunction [("b", Pulse.High), ("a", Pulse.Low)] ["x"])]
    (List.Forall₂.cons
      ⟨rfl, ⟨⟨by decide, by decide,
        List.Perm.swap ("b", Pulse.High) ("a", Pulse.Low) []⟩, rfl⟩⟩
      List.Forall₂.nil)
    2 10

end Day20
